import Mathlib

/-!
Shallow embedding of the bio-standardizer extraction and validation core
(src/parser.py, src/extractor.py, src/schema.py, src/extractor_ai.py),
together with theorems about its section segmenter, field detectors,
record-model normalizers and external-source reconciler.

Strings are modelled as Lean strings.  The Python regex class `\s` is
modelled by its ASCII members, and `str.lower` / `str.upper` /
`str.capitalize` by the ASCII case maps; every concrete input appearing in
the verified properties is ASCII.
-/

set_option maxRecDepth 16384

namespace BioStd

/-- ASCII members of the Python regex class `\s`
(space, tab, newline, carriage return, vertical tab, form feed). -/
def pyIsSpace (c : Char) : Bool :=
  c = ' ' || c = '\t' || c = '\n' || c = '\r' || c = '\x0b' || c = '\x0c'

/-- Model of `re.sub(r"\s+", " ", ·)` on character lists: every maximal
whitespace run becomes a single space.  The boolean flag records whether the
previous character belonged to a whitespace run that has already emitted
its space. -/
def collapseCore : Bool → List Char → List Char
  | _, [] => []
  | prevSp, c :: rest =>
    if pyIsSpace c then
      if prevSp then collapseCore true rest
      else ' ' :: collapseCore true rest
    else c :: collapseCore false rest

/-- `re.sub(r"\s+", " ", s)`. -/
def collapseWs (s : String) : String :=
  (collapseCore false s.toList).asString

/-- Drop the longest suffix all of whose characters satisfy `p`
(the right half of Python `str.strip`). -/
def dropTrailing (p : Char → Bool) : List Char → List Char
  | [] => []
  | c :: rest =>
    let r := dropTrailing p rest
    if r.isEmpty && p c then [] else c :: r

/-- Python `str.strip(chars)` on character lists: remove leading and
trailing characters satisfying `p`. -/
def stripBoth (p : Char → Bool) (l : List Char) : List Char :=
  dropTrailing p (l.dropWhile p)

/-- Python `str.strip()` (whitespace on both ends). -/
def pyStrip (s : String) : String :=
  (stripBoth pyIsSpace s.toList).asString

/-- Splitting into maximal non-whitespace runs (Python `str.split()` with
no argument, also `re.split(r"\s+", s.strip())` with empties removed).
The accumulator holds the reversed current word. -/
def wordsCore : List Char → List Char → List (List Char)
  | acc, [] => if acc.isEmpty then [] else [acc.reverse]
  | acc, c :: rest =>
    if pyIsSpace c then
      if acc.isEmpty then wordsCore [] rest
      else acc.reverse :: wordsCore [] rest
    else wordsCore (c :: acc) rest

/-- The whitespace-separated words of a character list. -/
def wordsOfL (l : List Char) : List (List Char) :=
  wordsCore [] l

/-- The whitespace-separated words of a string (Python `s.split()`). -/
def pyWords (s : String) : List String :=
  (wordsOfL s.toList).map List.asString

/-- `schema.word_count`: `len([t for t in re.split(r"\s+", s.strip()) if t])`. -/
def word_count (s : String) : Nat :=
  (pyWords s).length

/-- ASCII model of Python `str.lower`. -/
def pyLower (s : String) : String :=
  (s.toList.map Char.toLower).asString

/-- ASCII model of Python `str.upper`. -/
def pyUpper (s : String) : String :=
  (s.toList.map Char.toUpper).asString

/-- ASCII model of Python `str.capitalize`: first character upper-cased,
all remaining characters lower-cased. -/
def pyCapitalize (s : String) : String :=
  match s.toList with
  | [] => ""
  | c :: rest => (c.toUpper :: rest.map Char.toLower).asString

/-- `schema.ACRONYMS`. -/
def ACRONYMS : List String :=
  ["AI", "ML", "NLP", "LLM", "R&D", "SQL", "BI", "M&A", "ESG", "CFA", "CPA",
   "AWS", "GCP", "GPU", "API", "CEO", "CIO", "CTO"]

/-- One token of `Bio._name_strip`:
`p.capitalize() if p.upper() not in ACRONYMS else p.upper()`. -/
def nameTok (p : String) : String :=
  if pyUpper p ∈ ACRONYMS then pyUpper p else pyCapitalize p

/-- `Bio._name_strip`: collapse whitespace, strip, then re-join the
whitespace-split tokens after capitalizing each (acronyms upper-cased). -/
def name_strip (v : String) : String :=
  String.intercalate " " ((pyWords (pyStrip (collapseWs v))).map nameTok)

/-- ASCII model of Python `str.isupper`: at least one cased character and
no lower-case cased character. -/
def pyIsUpperStr (s : String) : Bool :=
  s.toList.any Char.isAlpha && s.toList.all (fun c => !c.isAlpha || c.isUpper)

/-- `schema.WORD_LIMIT_BULLET`. -/
def WORD_LIMIT_BULLET : Nat := 16

/-- `re.split(r"[;–—]", txt, maxsplit=1)[0]`: the prefix before the first
semicolon, en dash or em dash (the whole string when none occurs). -/
def firstSegment (s : String) : String :=
  (s.toList.takeWhile (fun c => !(c = ';' || c = '–' || c = '—'))).asString

/-- The per-entry body of `Bio._enforce_bullet_limits.trim_bullets`. -/
def trimBullet (b : String) : String :=
  let txt := pyStrip (collapseWs b)
  if WORD_LIMIT_BULLET < word_count txt then firstSegment txt else txt

/-- `trim_bullets` from `Bio._enforce_bullet_limits`. -/
def trim_bullets (lst : List String) : List String :=
  lst.map trimBullet

/-- Characters stripped by `.strip(" •-\t")` in `Bio._list_clean` and
`extractor_ai`. -/
def listStripChar (c : Char) : Bool :=
  c = ' ' || c = '•' || c = '-' || c = '\t'

/-- Per-item cleaning of `Bio._list_clean`:
`re.sub(r"\s+", " ", item).strip(" •-\t")`. -/
def listCleanItem (s : String) : String :=
  (stripBoth listStripChar (collapseCore false s.toList)).asString

/-- The dedupe loop of `Bio._list_clean` (`seen` holds lower-cased keys). -/
def dedupeLowerAux (seen : List String) : List String → List String
  | [] => []
  | x :: rest =>
    if pyLower x ∈ seen then dedupeLowerAux seen rest
    else x :: dedupeLowerAux (pyLower x :: seen) rest

/-- Case-insensitive first-occurrence deduplication. -/
def dedupeLower (l : List String) : List String :=
  dedupeLowerAux [] l

/-- `Bio._list_clean` on a list of strings: clean each item, drop empties,
dedupe case-insensitively keeping first occurrences.  (The Python validator
also wraps a single string into a one-element list and skips non-string
items; list-typed input is what every modelled call site passes.) -/
def list_clean (v : List String) : List String :=
  dedupeLower ((v.map listCleanItem).filter (fun s => s ≠ ""))

/-- `re.sub(r"[^\d+]", "", v)`: keep only ASCII digits and plus signs. -/
def digitsPlus (v : String) : String :=
  (v.toList.filter (fun c => c.isDigit || c = '+')).asString

/-- `Bio._normalize_phone`.  The optional external `phonenumbers` library is
an abstract parameter: `none` models the library being absent; a supplied
function returns `.error` when `phonenumbers.parse` raises, `.ok none` when
the number parses but `is_valid_number` is false, and `.ok (some fmt)` when
valid (`fmt` the national-format rendering). -/
def normalize_phone (pn : Option (String → Except String (Option String)))
    (v : Option String) : Option String :=
  match v with
  | none => none
  | some v =>
    if v = "" then some v
    else
      let s := digitsPlus v
      if s = "" then none
      else
        match pn with
        | none => some s
        | some parse =>
          match parse s with
          | .ok (some fmt) => some fmt
          | .ok none => some s
          | .error _ => some s

/-- Does the pattern occur as a prefix of the list? (Python `startswith`.) -/
def listStartsWith : List Char → List Char → Bool
  | [], _ => true
  | _ :: _, [] => false
  | c :: cs, d :: ds => c = d && listStartsWith cs ds

/-- Does the pattern occur as a contiguous sublist? (Python `needle in hay`.) -/
def listHasSub (pat : List Char) : List Char → Bool
  | [] => pat.isEmpty
  | c :: rest => listStartsWith pat (c :: rest) || listHasSub pat rest

/-- Python substring test `needle in hay`. -/
def pyIn (needle hay : String) : Bool :=
  listHasSub needle.toList hay.toList

/-- The parsed-URL view pydantic `AnyUrl` exposes to `Bio._linkedin_only`. -/
structure Url where
  scheme : String
  host : String
  path : String
deriving DecidableEq

/-- Locate the first occurrence of `://`, returning the characters before
it and the characters after it. -/
def splitSchemeSep : List Char → Option (List Char × List Char)
  | [] => none
  | c :: rest =>
    if listStartsWith [':', '/', '/'] (c :: rest) then some ([], rest.drop 2)
    else
      match splitSchemeSep rest with
      | some (a, b) => some (c :: a, b)
      | none => none

/-- Minimal model of pydantic `AnyUrl` parsing for `scheme://host/path`
URLs: nonempty scheme before `://`, host up to the first `/` (lower-cased,
as pydantic normalizes hosts), remainder as path. -/
def parseUrl (s : String) : Option Url :=
  match splitSchemeSep s.toList with
  | none => none
  | some (sch, rest) =>
    let host := rest.takeWhile (fun c => !(c = '/' || c = ':'))
    if sch.isEmpty || host.isEmpty then none
    else some ⟨sch.asString, pyLower host.asString, (rest.drop host.length).asString⟩

/-- `Bio._linkedin_only`: a present URL whose host does not contain
`linkedin.com` is a validation failure. -/
def linkedin_only (v : Option Url) : Except String (Option Url) :=
  match v with
  | none => .ok none
  | some u =>
    if pyIn "linkedin.com" u.host then .ok (some u)
    else .error "linkedin_url must be a linkedin.com URL"

/-- `Bio._compact_whitespace` (department, location, summary): collapse and
strip; an empty result becomes absent. -/
def compact_ws (v : Option String) : Option String :=
  match v with
  | none => none
  | some s =>
    let t := pyStrip (collapseWs s)
    if t = "" then none else some t

theorem length_dropWhile_le' (p : Char → Bool) (l : List Char) :
    (l.dropWhile p).length ≤ l.length := by
  induction l with
  | nil => simp
  | cons c rest ih =>
    by_cases h : p c
    · simpa [List.dropWhile, h] using Nat.le_succ_of_le ih
    · simp [List.dropWhile, h]

/-- One piece of `schema.smart_title`: the split of
`re.split(r"(\s+|-|/)", s)` keeping separators (whitespace runs, single
hyphens and single slashes) interleaved with the intervening pieces. -/
def smartSplitCore (acc : List Char) : List Char → List (List Char)
  | [] => [acc.reverse]
  | c :: rest =>
    if pyIsSpace c then
      acc.reverse :: (c :: rest.takeWhile pyIsSpace) ::
        smartSplitCore [] (rest.dropWhile pyIsSpace)
    else if c = '-' || c = '/' then
      acc.reverse :: [c] :: smartSplitCore [] rest
    else smartSplitCore (c :: acc) rest
termination_by l => l.length
decreasing_by
  · simp only [List.length_cons]
    exact Nat.lt_succ_of_le (length_dropWhile_le' _ _)
  · simp
  · simp

/-- One word of `schema.smart_title`'s loop body (the separator branch is
handled by the caller). -/
def smartWord (w : String) : String :=
  if pyUpper w ∈ ACRONYMS then pyUpper w
  else if pyIsUpperStr w && w.length ≤ 3 then pyUpper w
  else
    match w.toList with
    | [] => w
    | c :: rest => (c.toUpper :: rest).asString

/-- `schema.smart_title`: split keeping separators; separator tokens (which
start with whitespace, `-` or `/`, exactly the tokens matched by
`re.match(r"\s+|-|/", w)`) pass through; other tokens are acronym-mapped,
kept upper when short all-caps, else first-letter capitalized. -/
def smart_title (s : String) : String :=
  if s = "" then s
  else
    String.join ((smartSplitCore [] (stripBoth pyIsSpace s.toList)).map
      (fun w =>
        match w with
        | [] => ""
        | c :: _ =>
          if pyIsSpace c || c = '-' || c = '/' then w.asString
          else smartWord w.asString))

/-- `Bio._title_case`: absent or blank titles pass through; otherwise
whitespace-collapse, strip and smart-title-case. -/
def title_case (v : Option String) : Option String :=
  match v with
  | none => none
  | some t =>
    if pyStrip t = "" then some t
    else some (smart_title (pyStrip (collapseWs t)))

/-- `schema.ExperienceItem` after validation. -/
structure ExperienceItem where
  client_or_project : String
  role : Option String
  impact : Option String
deriving DecidableEq

/-- `schema.Bio` after validation. -/
structure Bio where
  full_name : String
  current_title : Option String
  department_or_practice : Option String
  location : Option String
  email : Option String
  phone : Option String
  linkedin_url : Option Url
  summary_paragraph : Option String
  expertise_bullets : List String
  selected_experience : List ExperienceItem
  education : List String
  certifications : List String
  affiliations : List String
  awards : List String
deriving DecidableEq

/-- `Bio._enforce_bullet_limits` (the `mode="after"` model validator):
apply `trim_bullets` to each of the five bullet list fields. -/
def enforce_bullet_limits (b : Bio) : Bio :=
  { b with
    expertise_bullets := trim_bullets b.expertise_bullets
    education := trim_bullets b.education
    certifications := trim_bullets b.certifications
    affiliations := trim_bullets b.affiliations
    awards := trim_bullets b.awards }

/-- The validating `Bio` constructor: per-field normalizers in field order,
the `min_length=2` constraint on the normalized name, the linkedin host
check, then the model-level bullet-limit pass.  `pn` is the abstract
`phonenumbers` capability (see `normalize_phone`); e-mail address
validation is delegated to an external `EmailStr` type and not modelled. -/
def mkBio (pn : Option (String → Except String (Option String)))
    (full_name : String)
    (current_title department_or_practice location email phone : Option String)
    (linkedin_url : Option Url) (summary_paragraph : Option String)
    (expertise_bullets education certifications affiliations awards : List String)
    (selected_experience : List ExperienceItem) : Except String Bio :=
  let name := name_strip full_name
  if name.length < 2 then
    .error "full_name: String should have at least 2 characters"
  else
    match linkedin_only linkedin_url with
    | .error e => .error e
    | .ok li =>
      .ok (enforce_bullet_limits
        { full_name := name
          current_title := title_case current_title
          department_or_practice := compact_ws department_or_practice
          location := compact_ws location
          email := email
          phone := normalize_phone pn phone
          linkedin_url := li
          summary_paragraph := compact_ws summary_paragraph
          expertise_bullets := list_clean expertise_bullets
          selected_experience := selected_experience
          education := list_clean education
          certifications := list_clean certifications
          affiliations := list_clean affiliations
          awards := list_clean awards })

/-- The leading glyphs stripped by `parser.clean_bullets`
(the regex class `[•\-\*\•\·]`, i.e. `•`, `-`, `*`, `·`). -/
def isBulletGlyph (c : Char) : Bool :=
  c = '•' || c = '-' || c = '*' || c = '·'

/-- Per-line body of `parser.clean_bullets`:
`re.sub(r'^[•\-\*\•\·]\s*', '', r).strip()` on character lists. -/
def cleanBulletL (l : List Char) : List Char :=
  match l with
  | [] => stripBoth pyIsSpace []
  | c :: rest =>
    if isBulletGlyph c then stripBoth pyIsSpace (rest.dropWhile pyIsSpace)
    else stripBoth pyIsSpace l

/-- Per-line body of `parser.clean_bullets` on strings. -/
def cleanBulletItem (r : String) : String :=
  (cleanBulletL r.toList).asString

/-- `parser.clean_bullets`: strip one leading glyph plus whitespace from
each line, keep the lines that remain nonempty. -/
def clean_bullets (raw : List String) : List String :=
  (raw.map cleanBulletItem).filter (fun s => s ≠ "")

/-- One token of `parser.looks_like_name`: full match of
`^[A-Z][a-z\-]+$` (leading capital, then one or more lower-case letters or
hyphens). -/
def capWordMatch (t : String) : Bool :=
  match t.toList with
  | [] => false
  | c :: rest =>
    c.isUpper && !rest.isEmpty && rest.all (fun d => d.isLower || d = '-')

/-- `parser.looks_like_name`: 2–5 whitespace tokens, of which at least
`max 2 (n-1)` look like capitalized words. -/
def looks_like_name (line : String) : Bool :=
  let tokens := pyWords line
  if 2 ≤ tokens.length && tokens.length ≤ 5 then
    max 2 (tokens.length - 1) ≤ (tokens.filter capWordMatch).length
  else false

/-- The seven fixed section keys of `parser.SECTION_ALIASES`, in the
dictionary's insertion order. -/
inductive SectionKey where
  | summary | expertise | experience | education | certifications
  | affiliations | awards
deriving DecidableEq

/-- The string name of a section key (the Python dict key). -/
def SectionKey.name : SectionKey → String
  | .summary => "summary"
  | .expertise => "expertise"
  | .experience => "experience"
  | .education => "education"
  | .certifications => "certifications"
  | .affiliations => "affiliations"
  | .awards => "awards"

/-- `parser.SECTION_ALIASES` (within one key the set order is irrelevant:
any member matching yields that same key). -/
def SectionKey.aliases : SectionKey → List String
  | .summary => ["summary", "profile", "about"]
  | .expertise => ["expertise", "skills", "capabilities", "core competencies"]
  | .experience =>
      ["experience", "selected experience", "professional experience", "engagements"]
  | .education => ["education", "academic"]
  | .certifications => ["certifications", "licenses"]
  | .affiliations => ["affiliations", "memberships"]
  | .awards => ["awards", "recognition", "honors"]

/-- The section keys in dict insertion order (the iteration order of
`SECTION_ALIASES.items()`). -/
def sectionKeyList : List SectionKey :=
  [.summary, .expertise, .experience, .education, .certifications,
   .affiliations, .awards]

/-- The alias lookup of `classify_heading`: lower-cased, stripped,
non-`[a-z\s]` characters removed, then matched (equality or prefix) against
the alias phrases in dict order. -/
def aliasKey (s : String) : Option SectionKey :=
  let base :=
    ((pyLower (pyStrip s)).toList.filter
      (fun c => ('a' ≤ c && c ≤ 'z') || pyIsSpace c)).asString
  sectionKeyList.find? (fun k =>
    k.aliases.any (fun nm => base = nm || listStartsWith nm.toList base.toList))

/-- Full match of `^([A-Z][a-z]+)(\s[A-Z][a-z]+){0,2}$`: consume one
capitalized word (`[A-Z][a-z]+`). -/
def matchCapWordL : List Char → Option (List Char)
  | [] => none
  | c :: rest =>
    if c.isUpper then
      let ls := rest.takeWhile Char.isLower
      if ls.isEmpty then none else some (rest.drop ls.length)
    else none

/-- Up to `n` further `\s[A-Z][a-z]+` groups followed by end of string. -/
def titleGroups : Nat → List Char → Bool
  | _, [] => true
  | 0, _ :: _ => false
  | n + 1, c :: rest =>
    pyIsSpace c &&
      (match matchCapWordL rest with
       | some r => titleGroups n r
       | none => false)

/-- `re.match(r'^([A-Z][a-z]+)(\s[A-Z][a-z]+){0,2}$', s)` as a boolean. -/
def titleCaseMatch (s : String) : Bool :=
  match matchCapWordL s.toList with
  | some r => titleGroups 2 r
  | none => false

/-- The heading-candidate test of `classify_heading`: at most 3 words and
fully upper-case or 1–3-word Title Case. -/
def isHeadingCandidate (s : String) : Bool :=
  (pyWords s).length ≤ 3 && (pyIsUpperStr s || titleCaseMatch s)

/-- `parser.classify_heading` (inner function of `split_sections`): alias
match in dict order, else `None`.  In the source an unmatched short
ALLCAPS/Title-Case line is tested as a heading candidate, but both the
candidate branch and the fall-through return `None`. -/
def classify_heading (s : String) : Option SectionKey :=
  match aliasKey s with
  | some k => some k
  | none => if isHeadingCandidate s then none else none

/-- The seven section line lists built by `split_sections`. -/
structure Sections where
  summary : List String
  expertise : List String
  experience : List String
  education : List String
  certifications : List String
  affiliations : List String
  awards : List String
deriving DecidableEq

/-- The all-empty initial mapping `{k: [] for k in SECTION_ALIASES}`. -/
def emptySections : Sections := ⟨[], [], [], [], [], [], []⟩

/-- The line list stored under one key. -/
def Sections.get (st : Sections) : SectionKey → List String
  | .summary => st.summary
  | .expertise => st.expertise
  | .experience => st.experience
  | .education => st.education
  | .certifications => st.certifications
  | .affiliations => st.affiliations
  | .awards => st.awards

/-- `sections[current_key].append(ln)`. -/
def Sections.app (st : Sections) (k : SectionKey) (ln : String) : Sections :=
  match k with
  | .summary => { st with summary := st.summary ++ [ln] }
  | .expertise => { st with expertise := st.expertise ++ [ln] }
  | .experience => { st with experience := st.experience ++ [ln] }
  | .education => { st with education := st.education ++ [ln] }
  | .certifications => { st with certifications := st.certifications ++ [ln] }
  | .affiliations => { st with affiliations := st.affiliations ++ [ln] }
  | .awards => { st with awards := st.awards ++ [ln] }

/-- The loop body of `parser.split_sections`: a recognized heading moves
the cursor; any other line is appended under the current cursor when one
exists, and discarded otherwise. -/
def splitStep (st : Option SectionKey × Sections) (ln : String) :
    Option SectionKey × Sections :=
  match classify_heading ln with
  | some k => (some k, st.2)
  | none =>
    match st.1 with
    | some k => (st.1, st.2.app k ln)
    | none => st

/-- The cursor/mapping state after `parser.split_sections`'s loop. -/
def splitSectionsSt (lines : List String) : Option SectionKey × Sections :=
  lines.foldl splitStep (none, emptySections)

/-- `parser.split_sections`: the returned mapping, as an association list
over the seven fixed keys in dict order. -/
def split_sections (lines : List String) : List (String × List String) :=
  sectionKeyList.map (fun k => (k.name, (splitSectionsSt lines).2.get k))

/-- One raw (client, role, impact) window taken by the experience loop of
`parse_bio_from_lines` (parser.py lines 117–133). -/
structure ExpChunk where
  client_or_project : String
  role : String
  impact : Option String
deriving DecidableEq

/-- The experience-window loop of `parse_bio_from_lines`: windows of up to
3 lines; a window of at least 2 lines yields an entry (third line, when
present, is the impact); a window of fewer than 2 lines stops the loop. -/
def expChunks : List String → List ExpChunk
  | a :: b :: c :: rest =>
    ⟨pyStrip a, pyStrip b, some (pyStrip c)⟩ :: expChunks rest
  | [a, b] => [⟨pyStrip a, pyStrip b, none⟩]
  | _ => []

/-- A JSON-ish value for the flat list fields of the external payload:
absent/null, a single string, or a list of strings. -/
inductive PyVal where
  | nullv
  | str : String → PyVal
  | strList : List String → PyVal
deriving DecidableEq

/-- The lookahead of `,\s+(?=[A-Za-z])`: at least one whitespace character
follows, and the character after the whitespace run is an ASCII letter. -/
def commaCutAhead (rest : List Char) : Bool :=
  !(rest.takeWhile pyIsSpace).isEmpty &&
    (match rest.dropWhile pyIsSpace with
     | d :: _ => d.isAlpha
     | [] => false)

/-- `re.split(r"[;\n]|,\s+(?=[A-Za-z])", v)` from `extractor_ai`: pieces
are cut at each `;` or newline, and at each comma followed by whitespace
whose next character is an ASCII letter (the comma and the whitespace are
consumed, the letter is not).  `acc` holds the reversed current piece;
`skip` is true while the whitespace of a comma separator is being
consumed. -/
def splitFieldCore (skip : Bool) (acc : List Char) : List Char → List (List Char)
  | [] => [acc.reverse]
  | c :: rest =>
    if skip && pyIsSpace c then splitFieldCore true acc rest
    else if c = ';' || c = '\n' then acc.reverse :: splitFieldCore false [] rest
    else if c = ',' && commaCutAhead rest then
      acc.reverse :: splitFieldCore true [] rest
    else splitFieldCore false (c :: acc) rest

/-- The list-field coercion of `ai_extract_bio_from_text`: a single string
is split on `[;\n]|,\s+(?=[A-Za-z])`, pieces blank after whitespace-strip
are dropped, and each kept piece is stripped of `" •-\t"`; `null` becomes
the empty list; a list passes through. -/
def coerce_list_field : PyVal → List String
  | .nullv => []
  | .strList l => l
  | .str v =>
    ((splitFieldCore false [] v.toList).filter
        (fun p => stripBoth pyIsSpace p ≠ [])).map
      (fun p => (stripBoth listStripChar p).asString)

/-- Cutting a character list at newlines (accumulator holds the reversed
current line). -/
def splitLinesL (acc : List Char) : List Char → List (List Char)
  | [] => [acc.reverse]
  | c :: rest =>
    if c = '\n' then acc.reverse :: splitLinesL [] rest
    else splitLinesL (c :: acc) rest

/-- Python `str.splitlines` restricted to `\n` separators (the only line
separator occurring in the modelled inputs). -/
def splitLines (text : String) : List String :=
  (splitLinesL [] text.toList).map List.asString

/-- The name-repair scan of `ai_extract_bio_from_text`: the first of the
first 8 non-empty stripped source lines that passes `looks_like_name`. -/
def firstNameLine (text : String) : Option String :=
  ((((splitLines text).map pyStrip).filter (fun s => s ≠ "")).take 8).find?
    looks_like_name

/-- The fixed key template of `ai_extract_bio_from_text` after copying the
recognized same-named keys of the external payload (unrecognized keys are
already ignored, missing keys keep their defaults).  `selected_experience`
holds its normalized form (step 4 of the reconciler); the scenarios
verified here leave it at its `[]` default. -/
structure Payload where
  full_name : Option String := none
  current_title : Option String := none
  department_or_practice : Option String := none
  location : Option String := none
  email : Option String := none
  phone : Option String := none
  linkedin_url : Option String := none
  summary_paragraph : Option String := none
  expertise_bullets : PyVal := PyVal.nullv
  education : PyVal := PyVal.nullv
  certifications : PyVal := PyVal.nullv
  affiliations : PyVal := PyVal.nullv
  awards : PyVal := PyVal.nullv
  selected_experience : List ExperienceItem := []

/-- `ai_extract_bio_from_text` after the external call: repair a missing or
blank `full_name` from the first 8 non-empty source lines (placeholder
`"Unknown"` when no line qualifies), coerce the five flat list fields, then
construct the `Bio` through the validating constructor. -/
def reconcile (pn : Option (String → Except String (Option String)))
    (p : Payload) (text : String) : Except String Bio :=
  let name :=
    if (match p.full_name with
        | none => true
        | some s => pyStrip s = "") then
      match firstNameLine text with
      | some ln => ln
      | none => "Unknown"
    else p.full_name.getD ""
  match p.linkedin_url with
  | none =>
    mkBio pn name p.current_title p.department_or_practice p.location
      p.email p.phone none p.summary_paragraph
      (coerce_list_field p.expertise_bullets)
      (coerce_list_field p.education)
      (coerce_list_field p.certifications)
      (coerce_list_field p.affiliations)
      (coerce_list_field p.awards)
      p.selected_experience
  | some u =>
    match parseUrl u with
    | none => .error "linkedin_url: input is not a valid URL"
    | some url =>
      mkBio pn name p.current_title p.department_or_practice p.location
        p.email p.phone (some url) p.summary_paragraph
        (coerce_list_field p.expertise_bullets)
        (coerce_list_field p.education)
        (coerce_list_field p.certifications)
        (coerce_list_field p.affiliations)
        (coerce_list_field p.awards)
        p.selected_experience

/-- Total number of occurrences of a line across the seven section lists. -/
def sumCnt (x : String) (st : Sections) : Nat :=
  st.summary.count x + st.expertise.count x + st.experience.count x +
    st.education.count x + st.certifications.count x +
    st.affiliations.count x + st.awards.count x

/-- Whether an `Except` result is a success. -/
def exceptOk : Except String Bio → Bool
  | .ok _ => true
  | .error _ => false

/-- Whether a character list is empty or starts with a non-glyph
character. -/
def headGlyphFree : List Char → Bool
  | [] => true
  | c :: _ => !isBulletGlyph c

/-- A minimal well-formed `Bio` value used to instantiate record-level
statements at concrete inputs. -/
def exampleBio : Bio :=
  ⟨"Jane Doe", none, none, none, none, none, none, none, [], [], [], [], [], []⟩

/-! ## Lemmas about whitespace splitting, collapsing and stripping -/

theorem words_collapse (l : List Char) :
    ∀ (b : Bool) (acc : List Char), (b = true → acc = []) →
      wordsCore acc (collapseCore b l) = wordsCore acc l := by
  induction l with
  | nil => intro b acc _; cases b <;> rfl
  | cons c rest ih =>
    intro b acc hb
    by_cases hsp : pyIsSpace c
    · cases b with
      | true =>
        have hacc := hb rfl
        subst hacc
        simp only [collapseCore, hsp, if_pos]
        rw [ih true [] (fun _ => rfl)]
        simp [wordsCore, hsp]
      | false =>
        simp only [collapseCore, hsp, if_pos, Bool.false_eq_true, if_false]
        show wordsCore acc (' ' :: collapseCore true rest) =
          wordsCore acc (c :: rest)
        have hsp' : pyIsSpace ' ' = true := rfl
        simp only [wordsCore, hsp, hsp', if_pos]
        rw [ih true [] (fun _ => rfl)]
    · simp only [collapseCore, hsp, Bool.false_eq_true, if_false]
      simp only [wordsCore, hsp, Bool.false_eq_true, if_false]
      exact ih false (c :: acc) (fun h => by cases h)

theorem words_allspace (l : List Char) :
    ∀ (acc : List Char), (∀ c ∈ l, pyIsSpace c = true) →
      wordsCore acc l = if acc.isEmpty then [] else [acc.reverse] := by
  induction l with
  | nil => intro acc _; rfl
  | cons c rest ih =>
    intro acc hl
    have hc : pyIsSpace c = true := hl c (List.mem_cons_self c rest)
    have hrest : ∀ d ∈ rest, pyIsSpace d = true :=
      fun d hd => hl d (List.mem_cons_of_mem c hd)
    simp only [wordsCore, hc, if_pos]
    by_cases hacc : acc.isEmpty
    · simp [hacc, ih [] hrest]
    · simp [hacc, ih [] hrest]

theorem words_append_sp (l : List Char) :
    ∀ (acc sp : List Char), (∀ c ∈ sp, pyIsSpace c = true) →
      wordsCore acc (l ++ sp) = wordsCore acc l := by
  induction l with
  | nil =>
    intro acc sp hsp
    simpa [wordsCore] using words_allspace sp acc hsp
  | cons c rest ih =>
    intro acc sp hsp
    by_cases hc : pyIsSpace c
    · simp only [List.cons_append, wordsCore, hc, if_pos]
      by_cases hacc : acc.isEmpty
      · simp [hacc, ih [] sp hsp]
      · simp [hacc, ih [] sp hsp]
    · simp only [List.cons_append, wordsCore, hc, Bool.false_eq_true, if_false]
      exact ih (c :: acc) sp hsp

theorem words_dropWhile_sp (l : List Char) :
    wordsCore [] (l.dropWhile pyIsSpace) = wordsCore [] l := by
  induction l with
  | nil => rfl
  | cons c rest ih =>
    by_cases hc : pyIsSpace c
    · simp only [List.dropWhile_cons, hc, if_pos]
      rw [ih]
      simp [wordsCore, hc]
    · simp [List.dropWhile_cons, hc]

theorem dropTrailing_decomp (p : Char → Bool) (l : List Char) :
    ∃ w, l = dropTrailing p l ++ w ∧ ∀ c ∈ w, p c = true := by
  induction l with
  | nil => exact ⟨[], rfl, by simp⟩
  | cons c rest ih =>
    obtain ⟨w, hw, hsp⟩ := ih
    by_cases hcond : (dropTrailing p rest).isEmpty && p c
    · refine ⟨c :: w, ?_, ?_⟩
      · have h1 : dropTrailing p rest = [] := by
          have := (Bool.and_eq_true _ _).mp hcond
          exact List.isEmpty_iff.mp this.1
        have h2 : rest = w := by rw [hw, h1]; rfl
        simp only [dropTrailing, hcond, if_pos]
        simp [h2]
      · intro d hd
        rcases List.mem_cons.mp hd with h | h
        · subst h; exact ((Bool.and_eq_true _ _).mp hcond).2
        · exact hsp d h
    · refine ⟨w, ?_, hsp⟩
      simp only [dropTrailing, hcond, if_false]
      simpa using hw

theorem words_strip (l : List Char) :
    wordsOfL (stripBoth pyIsSpace l) = wordsOfL l := by
  obtain ⟨w, hw, hsp⟩ := dropTrailing_decomp pyIsSpace (l.dropWhile pyIsSpace)
  unfold wordsOfL stripBoth
  calc wordsCore [] (dropTrailing pyIsSpace (l.dropWhile pyIsSpace))
      = wordsCore []
          (dropTrailing pyIsSpace (l.dropWhile pyIsSpace) ++ w) :=
        (words_append_sp _ [] w hsp).symm
    _ = wordsCore [] (l.dropWhile pyIsSpace) := by rw [← hw]
    _ = wordsCore [] l := words_dropWhile_sp l

theorem pyWords_strip_collapse (s : String) :
    pyWords (pyStrip (collapseWs s)) = pyWords s := by
  show ((wordsOfL (stripBoth pyIsSpace
      (collapseCore false s.toList))).map List.asString) = _
  rw [words_strip]
  show ((wordsCore [] (collapseCore false s.toList)).map List.asString) = _
  rw [words_collapse s.toList false [] (fun h => by cases h)]
  rfl

theorem dropWhile_idem (p : Char → Bool) (l : List Char) :
    (l.dropWhile p).dropWhile p = l.dropWhile p := by
  induction l with
  | nil => rfl
  | cons c rest ih =>
    by_cases hc : p c
    · simp [List.dropWhile_cons, hc, ih]
    · simp [List.dropWhile_cons, hc]

theorem dropTrailing_idem (p : Char → Bool) (l : List Char) :
    dropTrailing p (dropTrailing p l) = dropTrailing p l := by
  induction l with
  | nil => rfl
  | cons c rest ih =>
    by_cases hcond : (dropTrailing p rest).isEmpty && p c
    · simp [dropTrailing, hcond]
    · simp only [dropTrailing, hcond, if_false]
      simp only [dropTrailing, ih, hcond, if_false]

theorem dropTrailing_head (p : Char → Bool) (c : Char) (rest : List Char) :
    dropTrailing p (c :: rest) = [] ∨
      ∃ t, dropTrailing p (c :: rest) = c :: t := by
  by_cases hcond : (dropTrailing p rest).isEmpty && p c
  · left; simp [dropTrailing, hcond]
  · right; exact ⟨dropTrailing p rest, by simp [dropTrailing, hcond]⟩

theorem dropWhile_of_ne_head (p : Char → Bool) (l : List Char)
    (h : ∀ c t, l = c :: t → p c = false) : l.dropWhile p = l := by
  cases l with
  | nil => rfl
  | cons c t => simp [List.dropWhile_cons, h c t rfl]

theorem dropWhile_dropTrailing (p : Char → Bool) (m : List Char)
    (hm : m.dropWhile p = m) :
    (dropTrailing p m).dropWhile p = dropTrailing p m := by
  cases hd : dropTrailing p m with
  | nil => rfl
  | cons c t =>
    apply dropWhile_of_ne_head
    intro c' t' h
    injection h with h1 _
    subst h1
    cases m with
    | nil => simp [dropTrailing] at hd
    | cons c0 rest =>
      have hc0 : c = c0 := by
        rcases dropTrailing_head p c0 rest with h0 | ⟨t0, h0⟩
        · rw [h0] at hd; cases hd
        · rw [h0] at hd; injection hd with h2 _; exact h2.symm
      subst hc0
      by_cases hp : p c
      · exfalso
        rw [List.dropWhile_cons, if_pos hp] at hm
        have := length_dropWhile_le' p rest
        rw [hm] at this
        simp at this
      · simpa using hp

theorem stripBoth_idem (p : Char → Bool) (l : List Char) :
    stripBoth p (stripBoth p l) = stripBoth p l := by
  unfold stripBoth
  rw [dropWhile_dropTrailing p (l.dropWhile p) (dropWhile_idem p l),
    dropTrailing_idem]

theorem stripBoth_decomp (p : Char → Bool) (l : List Char) :
    ∃ w₁ w₂, l = w₁ ++ stripBoth p l ++ w₂ ∧
      (∀ c ∈ w₁, p c = true) ∧ (∀ c ∈ w₂, p c = true) := by
  obtain ⟨w₂, hw₂, hsp₂⟩ := dropTrailing_decomp p (l.dropWhile p)
  refine ⟨l.takeWhile p, w₂, ?_, ?_, hsp₂⟩
  · have h2 : stripBoth p l ++ w₂ = l.dropWhile p := by
      unfold stripBoth; exact hw₂.symm
    rw [List.append_assoc, h2, List.takeWhile_append_dropWhile]
  · intro c hc; exact List.mem_takeWhile_imp hc

/-! ## Lemmas about the dedupe loop of the list-field normalizer -/

theorem ded_sublist (c : List String) :
    ∀ seen, (dedupeLowerAux seen c).Sublist c := by
  induction c with
  | nil => intro seen; simp [dedupeLowerAux]
  | cons y rest ih =>
    intro seen
    by_cases hy : pyLower y ∈ seen
    · simp only [dedupeLowerAux, if_pos hy]
      exact (ih seen).cons y
    · simp only [dedupeLowerAux, if_neg hy]
      exact (ih (pyLower y :: seen)).cons₂ y

theorem ded_notin_seen (c : List String) :
    ∀ seen x, x ∈ dedupeLowerAux seen c → pyLower x ∉ seen := by
  induction c with
  | nil => intro seen x hx; simp [dedupeLowerAux] at hx
  | cons y rest ih =>
    intro seen x hx
    by_cases hy : pyLower y ∈ seen
    · rw [dedupeLowerAux, if_pos hy] at hx
      exact ih seen x hx
    · rw [dedupeLowerAux, if_neg hy] at hx
      rcases List.mem_cons.mp hx with h | h
      · subst h; exact hy
      · intro hmem
        exact ih _ x h (List.mem_cons_of_mem _ hmem)

theorem ded_nodup (c : List String) :
    ∀ seen, ((dedupeLowerAux seen c).map pyLower).Nodup := by
  induction c with
  | nil => intro seen; simp [dedupeLowerAux]
  | cons y rest ih =>
    intro seen
    by_cases hy : pyLower y ∈ seen
    · rw [dedupeLowerAux, if_pos hy]; exact ih seen
    · rw [dedupeLowerAux, if_neg hy]
      rw [List.map_cons, List.nodup_cons]
      refine ⟨?_, ih _⟩
      intro hmem
      obtain ⟨x, hx, hlx⟩ := List.mem_map.mp hmem
      exact ded_notin_seen rest _ x hx (by rw [hlx]; exact List.mem_cons_self _ _)

theorem ded_keys (c : List String) :
    ∀ seen x, x ∈ c →
      pyLower x ∈ seen ∨ pyLower x ∈ (dedupeLowerAux seen c).map pyLower := by
  induction c with
  | nil => intro seen x hx; cases hx
  | cons y rest ih =>
    intro seen x hx
    by_cases hy : pyLower y ∈ seen
    · rw [dedupeLowerAux, if_pos hy]
      rcases List.mem_cons.mp hx with h | h
      · subst h; exact Or.inl hy
      · exact ih seen x h
    · rw [dedupeLowerAux, if_neg hy]
      rcases List.mem_cons.mp hx with h | h
      · subst h
        exact Or.inr (by simp)
      · rcases ih (pyLower y :: seen) x h with hl | hr
        · rcases List.mem_cons.mp hl with h1 | h1
          · exact Or.inr (by simp [h1])
          · exact Or.inl h1
        · rw [List.map_cons]
          exact Or.inr (List.mem_cons_of_mem _ hr)

theorem ded_first (pre : List String) :
    ∀ (x : String) (post : List String) (seen : List String),
      pyLower x ∉ seen → pyLower x ∉ pre.map pyLower →
      x ∈ dedupeLowerAux seen (pre ++ x :: post) := by
  induction pre with
  | nil =>
    intro x post seen hseen _
    rw [List.nil_append, dedupeLowerAux, if_neg hseen]
    exact List.mem_cons_self _ _
  | cons y pre' ih =>
    intro x post seen hseen hpre
    have hxy : pyLower x ≠ pyLower y := by
      intro h; exact hpre (by simp [h])
    have hpre' : pyLower x ∉ pre'.map pyLower := by
      intro h; exact hpre (by simp [h])
    rw [List.cons_append]
    by_cases hy : pyLower y ∈ seen
    · rw [dedupeLowerAux, if_pos hy]
      exact ih x post seen hseen hpre'
    · rw [dedupeLowerAux, if_neg hy]
      refine List.mem_cons_of_mem _ ?_
      refine ih x post (pyLower y :: seen) ?_ hpre'
      intro h
      rcases List.mem_cons.mp h with h1 | h1
      · exact hxy h1
      · exact hseen h1

/-! ## Lemmas about the section segmenter -/

theorem get_app (st : Sections) (k k' : SectionKey) (ln : String) :
    (st.app k' ln).get k =
      if k = k' then st.get k ++ [ln] else st.get k := by
  cases k' <;> cases k <;> simp [Sections.app, Sections.get]

theorem fold_get_suffix (lines : List String) :
    ∀ (cur : Option SectionKey) (st : Sections) (k : SectionKey),
      ∃ t, ((lines.foldl splitStep (cur, st)).2).get k = st.get k ++ t ∧
        t.Sublist lines := by
  induction lines with
  | nil => intro cur st k; exact ⟨[], by simp, List.nil_sublist _⟩
  | cons ln rest ih =>
    intro cur st k
    rw [List.foldl_cons]
    cases hcl : classify_heading ln with
    | some k2 =>
      have hstep : splitStep (cur, st) ln = (some k2, st) := by
        simp [splitStep, hcl]
      rw [hstep]
      obtain ⟨t, ht, hs⟩ := ih (some k2) st k
      exact ⟨t, ht, hs.cons ln⟩
    | none =>
      cases cur with
      | none =>
        have hstep : splitStep (none, st) ln = (none, st) := by
          simp [splitStep, hcl]
        rw [hstep]
        obtain ⟨t, ht, hs⟩ := ih none st k
        exact ⟨t, ht, hs.cons ln⟩
      | some k2 =>
        have hstep : splitStep (some k2, st) ln = (some k2, st.app k2 ln) := by
          simp [splitStep, hcl]
        rw [hstep]
        obtain ⟨t, ht, hs⟩ := ih (some k2) (st.app k2 ln) k
        rw [get_app] at ht
        by_cases hk : k = k2
        · rw [if_pos hk] at ht
          refine ⟨ln :: t, ?_, hs.cons₂ ln⟩
          rw [ht, List.append_assoc]
          rfl
        · rw [if_neg hk] at ht
          exact ⟨t, ht, hs.cons ln⟩

theorem sumCnt_app (x : String) (st : Sections) (k : SectionKey) (ln : String) :
    sumCnt x (st.app k ln) = sumCnt x st + List.count x [ln] := by
  cases k <;> simp [Sections.app, sumCnt, List.count_append] <;> omega

theorem fold_sumCnt (lines : List String) :
    ∀ (cur : Option SectionKey) (st : Sections) (x : String),
      sumCnt x ((lines.foldl splitStep (cur, st)).2) ≤
        sumCnt x st + lines.count x := by
  induction lines with
  | nil => intro cur st x; simp
  | cons ln rest ih =>
    intro cur st x
    have hmono : rest.count x ≤ (ln :: rest).count x :=
      List.Sublist.count_le (List.sublist_cons_self ln rest) x
    rw [List.foldl_cons]
    cases hcl : classify_heading ln with
    | some k2 =>
      have hstep : splitStep (cur, st) ln = (some k2, st) := by
        simp [splitStep, hcl]
      rw [hstep]
      exact le_trans (ih (some k2) st x) (by omega)
    | none =>
      cases cur with
      | none =>
        have hstep : splitStep (none, st) ln = (none, st) := by
          simp [splitStep, hcl]
        rw [hstep]
        exact le_trans (ih none st x) (by omega)
      | some k2 =>
        have hstep : splitStep (some k2, st) ln = (some k2, st.app k2 ln) := by
          simp [splitStep, hcl]
        rw [hstep]
        refine le_trans (ih (some k2) (st.app k2 ln) x) ?_
        rw [sumCnt_app]
        have hcnt : (ln :: rest).count x = List.count x [ln] + rest.count x := by
          rw [← List.singleton_append, List.count_append]
        omega

theorem sections_sumCnt_le_one (lines : List String) (x : String)
    (hnd : lines.Nodup) : sumCnt x ((splitSectionsSt lines).2) ≤ 1 := by
  have h := fold_sumCnt lines none emptySections x
  have hz : sumCnt x emptySections = 0 := rfl
  have hc : lines.count x ≤ 1 := List.nodup_iff_count_le_one.mp hnd x
  unfold splitSectionsSt
  omega

theorem sections_key_unique (lines : List String) (hnd : lines.Nodup)
    (x : String) (k₁ k₂ : SectionKey)
    (h1 : x ∈ (splitSectionsSt lines).2.get k₁)
    (h2 : x ∈ (splitSectionsSt lines).2.get k₂) : k₁ = k₂ := by
  have hsum := sections_sumCnt_le_one lines x hnd
  have hc1 : 0 < List.count x ((splitSectionsSt lines).2.get k₁) :=
    List.count_pos_iff.mpr h1
  have hc2 : 0 < List.count x ((splitSectionsSt lines).2.get k₂) :=
    List.count_pos_iff.mpr h2
  cases k₁ <;> cases k₂ <;>
    first
      | rfl
      | (exfalso
         simp only [Sections.get] at hc1 hc2
         simp only [sumCnt] at hsum
         omega)

theorem fold_id_nonheading (pre : List String)
    (h : ∀ l ∈ pre, classify_heading l = none) :
    pre.foldl splitStep (none, emptySections) = (none, emptySections) := by
  induction pre with
  | nil => rfl
  | cons ln rest ih =>
    rw [List.foldl_cons]
    have hcl : classify_heading ln = none := h ln (List.mem_cons_self _ _)
    have hstep : splitStep (none, emptySections) ln = (none, emptySections) := by
      simp [splitStep, hcl]
    rw [hstep]
    exact ih (fun l hl => h l (List.mem_cons_of_mem _ hl))

theorem fold_get_no_heading (lines : List String) :
    ∀ (cur : Option SectionKey) (st : Sections) (k : SectionKey),
      (∀ l ∈ lines, classify_heading l ≠ some k) → cur ≠ some k →
      ((lines.foldl splitStep (cur, st)).2).get k = st.get k := by
  induction lines with
  | nil => intro cur st k _ _; rfl
  | cons ln rest ih =>
    intro cur st k hlines hcur
    rw [List.foldl_cons]
    cases hcl : classify_heading ln with
    | some k2 =>
      have hk2 : k2 ≠ k := by
        intro h
        exact hlines ln (List.mem_cons_self _ _) (by rw [hcl, h])
      have hstep : splitStep (cur, st) ln = (some k2, st) := by
        simp [splitStep, hcl]
      rw [hstep]
      exact ih (some k2) st k
        (fun l hl => hlines l (List.mem_cons_of_mem _ hl))
        (fun h => hk2 (by injection h))
    | none =>
      cases cur with
      | none =>
        have hstep : splitStep (none, st) ln = (none, st) := by
          simp [splitStep, hcl]
        rw [hstep]
        exact ih none st k
          (fun l hl => hlines l (List.mem_cons_of_mem _ hl)) hcur
      | some k2 =>
        have hk2 : k2 ≠ k := fun h => hcur (by rw [h])
        have hstep : splitStep (some k2, st) ln = (some k2, st.app k2 ln) := by
          simp [splitStep, hcl]
        rw [hstep]
        rw [ih (some k2) (st.app k2 ln) k
          (fun l hl => hlines l (List.mem_cons_of_mem _ hl)) hcur]
        rw [get_app, if_neg (fun h => hk2 h.symm)]

/-! ## Claim C1: experience windowing -/

/-- Claim C1, counterexample: an experience section with exactly 5 lines
does NOT yield exactly one 3-line entry with the remaining 2 lines
discarded — the second window still has 2 lines, which is not fewer than 2,
so the loop builds a second (2-line) entry. -/
theorem claim1_counterexample :
    ¬ (expChunks ["Acme Corp", "Lead Engineer", "Cut churn by 30%",
        "Beta LLC", "Advisor"]).length = 1 := by
  decide

/-- Claim C1, amended: the experience loop consumes windows of up to 3
lines and stops (discarding the remainder) exactly when a window has fewer
than 2 lines, i.e. when at most one line remains; a window of exactly 2
remaining lines still yields an entry with no impact line.  In particular a
5-line section yields two entries — one 3-line and one 2-line — and
discards nothing. -/
theorem claim1_amended :
    (∀ (a b c : String) (rest : List String),
      expChunks (a :: b :: c :: rest) =
        ⟨pyStrip a, pyStrip b, some (pyStrip c)⟩ :: expChunks rest) ∧
    (∀ a b : String, expChunks [a, b] = [⟨pyStrip a, pyStrip b, none⟩]) ∧
    (∀ a : String, expChunks [a] = []) ∧
    expChunks [] = [] ∧
    (∀ a b c d e : String,
      expChunks [a, b, c, d, e] =
        [⟨pyStrip a, pyStrip b, some (pyStrip c)⟩,
         ⟨pyStrip d, pyStrip e, none⟩]) := by
  refine ⟨fun a b c rest => rfl, fun a b => rfl, fun a => rfl, rfl,
    fun a b c d e => rfl⟩

/-! ## Claim C6: name normalization -/

/-- Claim C6, counterexample: `_name_strip` uses Python `str.capitalize`,
which lower-cases the rest of each token; the claim's reading — rest of the
token kept as in the source — would give `"Jane DOE"`, but the code gives
`"Jane Doe"`. -/
theorem claim6_counterexample :
    name_strip "jane DOE" = "Jane Doe" ∧ name_strip "jane DOE" ≠ "Jane DOE" := by
  decide

/-- Claim C6, amended: `_name_strip` collapses internal whitespace and maps
each whitespace-separated token `p` to `p.upper()` when that upper-casing
lies in the acronym set, and otherwise to `p.capitalize()` — leading letter
upper-cased and the REST OF THE TOKEN LOWER-CASED (not kept as in the
source). -/
theorem claim6_amended :
    (∀ v : String,
      name_strip v = String.intercalate " " ((pyWords v).map nameTok)) ∧
    name_strip "ai strategy lead" = "AI Strategy Lead" := by
  constructor
  · intro v
    unfold name_strip
    rw [pyWords_strip_collapse]
  · decide

/-! ## Claim C9: external-source reconciliation scenario -/

/-- Claim C9: the reconciler, on payload
`{"full_name": "", "expertise_bullets": "Skill A; Skill B"}` with source
text whose first non-empty line is `"John Q. Public"`, repairs the name
from the source (the name-likeness test tolerating the non-capitalized
middle initial `"Q."`), splits the single-string list field on the
semicolon, and produces a valid `Bio` with exactly those fields. -/
theorem claim9_reconcile :
    reconcile none
        { full_name := some "",
          expertise_bullets := PyVal.str "Skill A; Skill B" }
        "John Q. Public\nStrategy advisor to boards." =
      .ok { full_name := "John Q. Public", current_title := none,
            department_or_practice := none, location := none, email := none,
            phone := none, linkedin_url := none, summary_paragraph := none,
            expertise_bullets := ["Skill A", "Skill B"],
            selected_experience := [], education := [], certifications := [],
            affiliations := [], awards := [] } ∧
    looks_like_name "John Q. Public" = true := by
  exact ⟨rfl, rfl⟩

/-! ## Claim C2: bullet word-limit compression -/

/-- Claim C2: the model-level pass trims every entry of each of the five
bullet list fields with the same rule; an entry whose (normalized) word
count exceeds 16 is replaced — once, not iteratively — by its first
semicolon/en-dash/em-dash segment, so the result's word count is bounded by
the first segment's word count; an entry at or under 16 words is left as
its normalized form, hence untouched when already normalized. -/
theorem claim2_bullet_compression :
    ∀ (bio : Bio) (b : String),
      ((enforce_bullet_limits bio).expertise_bullets =
          bio.expertise_bullets.map trimBullet ∧
        (enforce_bullet_limits bio).education = bio.education.map trimBullet ∧
        (enforce_bullet_limits bio).certifications =
          bio.certifications.map trimBullet ∧
        (enforce_bullet_limits bio).affiliations =
          bio.affiliations.map trimBullet ∧
        (enforce_bullet_limits bio).awards = bio.awards.map trimBullet) ∧
      (WORD_LIMIT_BULLET < word_count (pyStrip (collapseWs b)) →
        trimBullet b = firstSegment (pyStrip (collapseWs b)) ∧
        word_count (trimBullet b) ≤
          word_count (firstSegment (pyStrip (collapseWs b)))) ∧
      (word_count (pyStrip (collapseWs b)) ≤ WORD_LIMIT_BULLET →
        trimBullet b = pyStrip (collapseWs b)) ∧
      (pyStrip (collapseWs b) = b → word_count b ≤ WORD_LIMIT_BULLET →
        trimBullet b = b) := by
  intro bio b
  refine ⟨⟨rfl, rfl, rfl, rfl, rfl⟩, ?_, ?_, ?_⟩
  · intro h
    have he : trimBullet b = firstSegment (pyStrip (collapseWs b)) := by
      unfold trimBullet
      rw [if_pos h]
    exact ⟨he, by rw [he]⟩
  · intro h
    unfold trimBullet
    rw [if_neg (Nat.not_lt.mpr h)]
  · intro hb h
    unfold trimBullet
    rw [hb, if_neg (Nat.not_lt.mpr h)]

/-- Claim C2, witness: a 18-word bullet is trimmed to its first semicolon
segment; a short already-normalized bullet is returned unchanged. -/
theorem claim2_witness :
    trimBullet "w w w w w w w w w w w w w w w w w; extra tail" =
      firstSegment (pyStrip (collapseWs
        "w w w w w w w w w w w w w w w w w; extra tail")) ∧
    trimBullet "Responsible AI" = "Responsible AI" :=
  ⟨((claim2_bullet_compression exampleBio
      "w w w w w w w w w w w w w w w w w; extra tail").2.1 (by decide)).1,
   (claim2_bullet_compression exampleBio "Responsible AI").2.2.2
     (by decide) (by decide)⟩

/-! ## Claim C3: case-insensitive order-preserving deduplication -/

/-- Claim C3: `_list_clean` deduplicates case-insensitively preserving
first-seen order: the output is a sublist of the cleaned input, its
lower-casings are pairwise distinct, every cleaned item's lower-casing
survives, and any cleaned item whose lower-casing is new at its position is
kept; in particular `["AI", "ai", "ML"]` yields `["AI", "ML"]`. -/
theorem claim3_dedupe :
    (list_clean ["AI", "ai", "ML"] = ["AI", "ML"]) ∧
    ∀ v : List String,
      (list_clean v).Sublist
        ((v.map listCleanItem).filter (fun s => s ≠ "")) ∧
      ((list_clean v).map pyLower).Nodup ∧
      (∀ x ∈ (v.map listCleanItem).filter (fun s => s ≠ ""),
        pyLower x ∈ (list_clean v).map pyLower) ∧
      (∀ (pre : List String) (x : String) (post : List String),
        (v.map listCleanItem).filter (fun s => s ≠ "") = pre ++ x :: post →
        pyLower x ∉ pre.map pyLower → x ∈ list_clean v) := by
  refine ⟨by decide, fun v => ⟨?_, ?_, ?_, ?_⟩⟩
  · exact ded_sublist _ []
  · exact ded_nodup _ []
  · intro x hx
    rcases ded_keys _ [] x hx with h | h
    · exact absurd h (List.not_mem_nil _)
    · exact h
  · intro pre x post heq hpre
    unfold list_clean dedupeLower
    rw [heq]
    exact ded_first pre x post [] (List.not_mem_nil _) hpre

/-- Claim C3, witness: the first occurrence `"AI"` is kept when its
lower-casing has not been seen before it. -/
theorem claim3_witness : "AI" ∈ list_clean ["AI", "ai", "ML"] :=
  (claim3_dedupe.2 ["AI", "ai", "ML"]).2.2.2 [] "AI" ["ai", "ML"]
    (by decide) (by decide)

/-! ## Claim C4: phone normalization never fails -/

/-- Claim C4: `_normalize_phone` never raises.  When the stripped digit
string is nonempty and the `phonenumbers` capability is absent, raises, or
reports the number invalid, the digit/plus-stripped original is returned
(when the stripped string is empty, the field becomes absent before any
parse is attempted); and the success of `Bio` construction is entirely
independent of the phone argument. -/
theorem claim4_phone :
    ∀ (pn : Option (String → Except String (Option String))) (v : String),
      (digitsPlus v ≠ "" →
        (pn = none → normalize_phone pn (some v) = some (digitsPlus v)) ∧
        (∀ p e, pn = some p → p (digitsPlus v) = .error e →
          normalize_phone pn (some v) = some (digitsPlus v)) ∧
        (∀ p, pn = some p → p (digitsPlus v) = .ok none →
          normalize_phone pn (some v) = some (digitsPlus v))) ∧
      (digitsPlus v = "" → v ≠ "" → normalize_phone pn (some v) = none) ∧
      (∀ fn t d loc em li su e1 e2 e3 e4 e5 se ph₁ ph₂,
        exceptOk (mkBio pn fn t d loc em ph₁ li su e1 e2 e3 e4 e5 se) =
          exceptOk (mkBio pn fn t d loc em ph₂ li su e1 e2 e3 e4 e5 se)) := by
  intro pn v
  have hv0 : digitsPlus v ≠ "" → v ≠ "" := by
    intro h hv; exact h (by rw [hv]; rfl)
  refine ⟨?_, ?_, ?_⟩
  · intro hne
    refine ⟨?_, ?_, ?_⟩
    · intro hpn
      subst hpn
      simp [normalize_phone, hv0 hne, hne]
    · intro p e hpn hp
      subst hpn
      simp [normalize_phone, hv0 hne, hne, hp]
    · intro p hpn hp
      subst hpn
      simp [normalize_phone, hv0 hne, hne, hp]
  · intro hz hv
    simp [normalize_phone, hv, hz]
  · intro fn t d loc em li su e1 e2 e3 e4 e5 se ph₁ ph₂
    unfold mkBio
    by_cases hname : (name_strip fn).length < 2
    · simp [hname]
    · cases hli : linkedin_only li with
      | error e => simp [hname, hli]
      | ok x => simp [hname, hli, exceptOk]

/-- Claim C4, witness: with no parser available, `"(617) 555-0100"`
normalizes to its stripped digits, and `Bio` construction succeeds equally
with or without that phone value. -/
theorem claim4_witness :
    normalize_phone none (some "(617) 555-0100") =
      some (digitsPlus "(617) 555-0100") ∧
    exceptOk (mkBio none "Jane Doe" none none none none
        (some "(617) 555-0100") none none [] [] [] [] [] []) =
      exceptOk (mkBio none "Jane Doe" none none none none
        none none none [] [] [] [] [] []) :=
  ⟨((claim4_phone none "(617) 555-0100").1 (by decide)).1 rfl,
   (claim4_phone none "(617) 555-0100").2.2 "Jane Doe" none none none none
     none none [] [] [] [] [] [] (some "(617) 555-0100") none⟩

/-! ## Claim C5: professional-network link validation -/

/-- Claim C5: a `linkedin.com` profile URL passes validation, the same path
on `example.com` is rejected with an error naming the `linkedin_url` field,
and in general a present URL whose host does not contain `linkedin.com`
always fails `Bio` construction — never a silent drop. -/
theorem claim5_linkedin :
    (∃ u, parseUrl "http://linkedin.com/in/jdoe" = some u ∧
      exceptOk (mkBio none "Jane Doe" none none none none none (some u) none
        [] [] [] [] [] []) = true) ∧
    (∃ u, parseUrl "http://example.com/in/jdoe" = some u ∧
      mkBio none "Jane Doe" none none none none none (some u) none
          [] [] [] [] [] [] =
        .error "linkedin_url must be a linkedin.com URL") ∧
    (∀ pn fn t d loc em ph (u : Url) su e1 e2 e3 e4 e5 se,
      pyIn "linkedin.com" u.host = false →
      exceptOk (mkBio pn fn t d loc em ph (some u) su e1 e2 e3 e4 e5 se) =
        false) := by
  refine ⟨⟨⟨"http", "linkedin.com", "/in/jdoe"⟩, by decide, by decide⟩,
    ⟨⟨"http", "example.com", "/in/jdoe"⟩, by decide, by rfl⟩, ?_⟩
  intro pn fn t d loc em ph u su e1 e2 e3 e4 e5 se hhost
  have hli : linkedin_only (some u) =
      .error "linkedin_url must be a linkedin.com URL" := by
    simp [linkedin_only, hhost]
  unfold mkBio
  by_cases hname : (name_strip fn).length < 2
  · simp [hname, exceptOk]
  · simp [hname, hli, exceptOk]

/-- Claim C5, witness: a present URL with host `example.com` makes `Bio`
construction fail. -/
theorem claim5_witness :
    exceptOk (mkBio none "Jane Doe" none none none none none
        (some ⟨"http", "example.com", "/in/jdoe"⟩) none [] [] [] [] [] []) =
      false :=
  claim5_linkedin.2.2 none "Jane Doe" none none none none none
    ⟨"http", "example.com", "/in/jdoe"⟩ none [] [] [] [] [] [] (by decide)

/-! ## Claim C7: unrecognized short headings -/

/-- Claim C7, counterexample: `"RANDOM"` is a short heading candidate
matching no alias, yet it is NOT dropped from the output — `classify_heading`
returns `None` for it, so the loop appends it to the currently open
`summary` section like any content line. -/
theorem claim7_counterexample :
    isHeadingCandidate "RANDOM" = true ∧ aliasKey "RANDOM" = none ∧
      "RANDOM" ∈
        (splitSectionsSt ["SUMMARY", "text here", "RANDOM", "more text"]).2.summary := by
  refine ⟨by decide, by decide, by decide⟩

/-- Claim C7, amended: a line matching no section alias — heading candidate
or not — is classified as a non-heading; it resets no section cursor, and it
is treated as an ordinary content line: appended to the currently open
section when one exists, and dropped only when no section is open yet.
Lines following it keep accumulating under the previously current key. -/
theorem claim7_amended :
    (∀ s : String, aliasKey s = none → classify_heading s = none) ∧
    (∀ (acc : Sections) (ln : String) (k : SectionKey),
      classify_heading ln = none →
      splitStep (some k, acc) ln = (some k, acc.app k ln)) ∧
    (∀ (acc : Sections) (ln : String), classify_heading ln = none →
      splitStep (none, acc) ln = (none, acc)) := by
  refine ⟨?_, ?_, ?_⟩
  · intro s h
    simp [classify_heading, h]
  · intro acc ln k h
    simp [splitStep, h]
  · intro acc ln h
    simp [splitStep, h]

/-- Claim C7, witness: with the `summary` section open, the unrecognized
heading candidate `"RANDOM"` is appended to it, the cursor unchanged. -/
theorem claim7_witness :
    splitStep (some SectionKey.summary, emptySections) "RANDOM" =
      (some SectionKey.summary, emptySections.app SectionKey.summary "RANDOM") :=
  claim7_amended.2.1 emptySections "RANDOM" SectionKey.summary (by decide)

/-! ## Claim C8: bullet cleaning -/

theorem cleanBulletL_strip (r : List Char) :
    ∃ m, cleanBulletL r = stripBoth pyIsSpace m := by
  cases r with
  | nil => exact ⟨[], rfl⟩
  | cons c rest =>
    by_cases h : isBulletGlyph c
    · exact ⟨rest.dropWhile pyIsSpace, by simp [cleanBulletL, h]⟩
    · exact ⟨c :: rest, by simp [cleanBulletL, h]⟩

/-- Claim C8, counterexample: cleaning is NOT a no-op on its own outputs,
and a non-blank line consisting of just a glyph is emptied and dropped:
`["- - x"]` cleans to `["- x"]`, whose re-cleaning gives `["x"]`, and
`["•"]` cleans to `[]`. -/
theorem claim8_counterexample :
    clean_bullets ["•"] = [] ∧ clean_bullets ["- - x"] = ["- x"] ∧
      clean_bullets (clean_bullets ["- - x"]) ≠ clean_bullets ["- - x"] := by
  refine ⟨by decide, by decide, by decide⟩

/-- Claim C8, amended: per line, cleaning removes at most one leading
bullet glyph plus surrounding whitespace (every input line decomposes as an
optional single glyph, whitespace, the cleaned line, and whitespace); kept
output items are never empty (a line that becomes empty — e.g. a lone
glyph — is dropped rather than kept); and cleaning is idempotent exactly on
results that do not themselves start with a glyph, which a doubled glyph in
the source can produce. -/
theorem claim8_amended :
    ∀ (r : List Char) (raw : List String),
      (∃ g w₁ w₂, r = g ++ w₁ ++ cleanBulletL r ++ w₂ ∧
        (g = [] ∨ ∃ c, g = [c] ∧ isBulletGlyph c = true) ∧
        (∀ c ∈ w₁, pyIsSpace c = true) ∧ (∀ c ∈ w₂, pyIsSpace c = true)) ∧
      (∀ x ∈ clean_bullets raw, x ≠ "") ∧
      (headGlyphFree (cleanBulletL r) = true →
        cleanBulletL (cleanBulletL r) = cleanBulletL r) := by
  intro r raw
  refine ⟨?_, ?_, ?_⟩
  · cases r with
    | nil => exact ⟨[], [], [], rfl, Or.inl rfl, by simp, by simp⟩
    | cons c rest =>
      by_cases h : isBulletGlyph c
      · have heq : cleanBulletL (c :: rest) =
            stripBoth pyIsSpace (rest.dropWhile pyIsSpace) := by
          simp [cleanBulletL, h]
        have h2 : stripBoth pyIsSpace (rest.dropWhile pyIsSpace) =
            dropTrailing pyIsSpace (rest.dropWhile pyIsSpace) := by
          unfold stripBoth
          rw [dropWhile_idem]
        obtain ⟨w₂, hw₂, hsp₂⟩ :=
          dropTrailing_decomp pyIsSpace (rest.dropWhile pyIsSpace)
        refine ⟨[c], rest.takeWhile pyIsSpace, w₂, ?_,
          Or.inr ⟨c, rfl, h⟩, fun d hd => List.mem_takeWhile_imp hd, hsp₂⟩
        rw [heq, h2]
        simp only [List.append_assoc, List.cons_append, List.nil_append]
        rw [← hw₂, List.takeWhile_append_dropWhile]
      · have heq : cleanBulletL (c :: rest) =
            stripBoth pyIsSpace (c :: rest) := by
          simp [cleanBulletL, h]
        obtain ⟨w₁, w₂, hw, hp₁, hp₂⟩ := stripBoth_decomp pyIsSpace (c :: rest)
        refine ⟨[], w₁, w₂, ?_, Or.inl rfl, hp₁, hp₂⟩
        rw [heq]
        simpa using hw
  · intro x hx
    simp only [clean_bullets, List.mem_filter, decide_not] at hx
    simpa using hx.2
  · intro hfree
    obtain ⟨m, hm⟩ := cleanBulletL_strip r
    cases hres : cleanBulletL r with
    | nil => rfl
    | cons c t =>
      rw [hres] at hfree
      have hg : isBulletGlyph c = false := by
        simpa [headGlyphFree] using hfree
      have heq2 : (c :: t) = stripBoth pyIsSpace m := by rw [← hres, hm]
      calc cleanBulletL (c :: t) = stripBoth pyIsSpace (c :: t) := by
            simp [cleanBulletL, hg]
        _ = stripBoth pyIsSpace (stripBoth pyIsSpace m) := by rw [heq2]
        _ = stripBoth pyIsSpace m := stripBoth_idem _ _
        _ = c :: t := heq2.symm

/-- Claim C8, witness: `"• item"` cleans to `"item"`, which starts with no
glyph, and re-cleaning it is a no-op. -/
theorem claim8_witness :
    cleanBulletL (cleanBulletL "• item".toList) =
      cleanBulletL "• item".toList :=
  (claim8_amended "• item".toList []).2.2 (by decide)

/-! ## Claim C10: section segmenter invariants -/

theorem emptySections_get (k : SectionKey) : emptySections.get k = [] := by
  cases k <;> rfl

/-- Claim C10: for every input, the segmenter's mapping has exactly the
seven fixed keys in order (an undetected section maps to `[]`, never to a
missing key); each section's line list is a sublist of the input (so its
lines are input lines in document order); under duplicate-free input every
line lands under at most one key; and lines before the first recognized
heading appear in no section list. -/
theorem claim10_segmenter_invariants :
    ∀ lines : List String,
      ((split_sections lines).map Prod.fst =
        ["summary", "expertise", "experience", "education",
         "certifications", "affiliations", "awards"]) ∧
      (∀ k : SectionKey, (∀ l ∈ lines, classify_heading l ≠ some k) →
        (splitSectionsSt lines).2.get k = []) ∧
      (∀ p ∈ split_sections lines, p.2.Sublist lines) ∧
      (lines.Nodup → ∀ x : String, ∀ p₁ ∈ split_sections lines,
        ∀ p₂ ∈ split_sections lines, x ∈ p₁.2 → x ∈ p₂.2 → p₁.1 = p₂.1) ∧
      (lines.Nodup →
        ∀ x ∈ lines.takeWhile (fun l => (classify_heading l).isNone),
          ∀ p ∈ split_sections lines, x ∉ p.2) := by
  intro lines
  refine ⟨?_, ?_, ?_, ?_, ?_⟩
  · simp [split_sections, sectionKeyList, SectionKey.name]
  · intro k h
    have hg := fold_get_no_heading lines none emptySections k h (by simp)
    exact hg.trans (emptySections_get k)
  · intro p hp
    obtain ⟨k, hk, hpe⟩ := List.mem_map.mp hp
    subst hpe
    obtain ⟨t, ht, hs⟩ := fold_get_suffix lines none emptySections k
    show ((splitSectionsSt lines).2.get k).Sublist lines
    rw [show (splitSectionsSt lines).2.get k = emptySections.get k ++ t from ht,
      emptySections_get, List.nil_append]
    exact hs
  · intro hnd x p₁ hp₁ p₂ hp₂ hx₁ hx₂
    obtain ⟨k₁, hk₁, hpe₁⟩ := List.mem_map.mp hp₁
    obtain ⟨k₂, hk₂, hpe₂⟩ := List.mem_map.mp hp₂
    subst hpe₁
    subst hpe₂
    have e : k₁ = k₂ := sections_key_unique lines hnd x k₁ k₂ hx₁ hx₂
    show k₁.name = k₂.name
    rw [e]
  · intro hnd x hxpre p hp hxp
    obtain ⟨k, hk, hpe⟩ := List.mem_map.mp hp
    subst hpe
    set f := fun l => (classify_heading l).isNone with hf
    have hsplit : lines.takeWhile f ++ lines.dropWhile f = lines :=
      List.takeWhile_append_dropWhile f lines
    have hprenone : ∀ l ∈ lines.takeWhile f, classify_heading l = none := by
      intro l hl
      have hfl := List.mem_takeWhile_imp hl
      rw [hf] at hfl
      exact Option.isNone_iff_eq_none.mp hfl
    have hfold : splitSectionsSt lines =
        (lines.dropWhile f).foldl splitStep (none, emptySections) := by
      unfold splitSectionsSt
      conv_lhs => rw [← hsplit]
      rw [List.foldl_append, fold_id_nonheading _ hprenone]
    obtain ⟨t, ht, hs⟩ :=
      fold_get_suffix (lines.dropWhile f) none emptySections k
    have hxt : x ∈ lines.dropWhile f := by
      apply hs.subset
      have h2 : (splitSectionsSt lines).2.get k = emptySections.get k ++ t := by
        rw [hfold]
        exact ht
      rw [h2, emptySections_get, List.nil_append] at hxp
      exact hxp
    have hnd2 : (lines.takeWhile f ++ lines.dropWhile f).Nodup := by
      rw [hsplit]
      exact hnd
    exact (List.disjoint_of_nodup_append hnd2) hxpre hxt

/-- Claim C10, witness: on a concrete document whose first line precedes
every recognized heading, that line appears in no section list. -/
theorem claim10_witness :
    "intro words" ∉ (("summary", ["alpha beta"]) : String × List String).2 :=
  (claim10_segmenter_invariants ["intro words", "SUMMARY", "alpha beta"]).2.2.2.2
    (by decide) "intro words" (by decide) ("summary", ["alpha beta"]) (by decide)

end BioStd
